import Mathlib

/-!
Verification of the Capture24 spectrogram training script
(`src/spectrogram.py`).  The script's pure data manipulations are embedded
shallowly: numpy arrays become `List`s, array values become `ℚ`, boolean
masks become `List Bool`, and third-party numerical kernels that the script
merely orchestrates (the STFT, `exp` inside the softmax, the complex
modulus, `log`) are abstracted as function parameters of the theorems, so
that every statement is about the script's own orchestration logic.
-/

set_option maxHeartbeats 1000000

namespace Capture24

/-! ## Participant hold-out split (source lines 123–132) -/

/-- Participant ids held out for testing: `pids_test = [2, 3]`. -/
def pids_test : List Int := [2, 3]

/-- Boolean test mask `np.isin(pid, pids_test)`: entry `i` is true exactly
when the participant id of window `i` belongs to `pids_test`. -/
def mask_test (pid : List Int) : List Bool :=
  pid.map (fun p => decide (p ∈ pids_test))

/-- Boolean train mask `~mask_test`, the pointwise complement. -/
def mask_train (pid : List Int) : List Bool :=
  (mask_test pid).map (fun b => !b)

/-- Boolean-mask row selection, the semantics of numpy boolean indexing
`a[mask]` used for `y`, `pid`, and — via `utils.ArrayFromMask` — for the
spectrogram array.  Modelled from the spec: `utils.ArrayFromMask` is
repository code that is not under `src/`; per the spec's grouped hold-out
split it selects the rows of the memory-mapped array at which the boolean
mask is true, exactly as `y[mask]` does for an in-memory array. -/
def maskSelect (xs : List α) (m : List Bool) : List α :=
  ((xs.zip m).filter (fun p => p.2)).map (fun p => p.1)

@[simp] lemma maskSelect_nil_left (m : List Bool) :
    maskSelect ([] : List α) m = [] := rfl

@[simp] lemma maskSelect_nil_right (xs : List α) :
    maskSelect xs ([] : List Bool) = [] := by
  simp [maskSelect]

@[simp] lemma maskSelect_cons (x : α) (xs : List α) (b : Bool) (m : List Bool) :
    maskSelect (x :: xs) (b :: m) =
      if b then x :: maskSelect xs m else maskSelect xs m := by
  cases b <;> simp [maskSelect]

/-- Selecting a list by the mask computed from its own entries is filtering. -/
lemma maskSelect_self_map (q : Int → Bool) :
    ∀ pid : List Int, maskSelect pid (pid.map q) = pid.filter q := by
  intro pid
  induction pid with
  | nil => simp
  | cons p t ih =>
      by_cases hq : q p = true <;> simp [hq, ih, List.filter_cons]

/-- Selecting two aligned lists by the same mask keeps them aligned. -/
lemma maskSelect_zip (xs : List α) (ys : List β) (m : List Bool)
    (h : xs.length = ys.length) :
    (maskSelect xs m).zip (maskSelect ys m) = maskSelect (xs.zip ys) m := by
  induction xs generalizing ys m with
  | nil =>
      cases ys with
      | nil => simp
      | cons y t => simp at h
  | cons x xs ih =>
      cases ys with
      | nil => simp at h
      | cons y yt =>
          cases m with
          | nil => simp
          | cons b mt =>
              have h' : xs.length = yt.length := by simpa using h
              by_cases hb : b = true <;> simp [hb, ih yt mt h']

/-- Selection by a mask and by its complement is a partition of the list. -/
lemma maskSelect_not_append_perm (xs : List α) :
    ∀ m : List Bool, xs.length = m.length →
      (maskSelect xs (m.map (fun b => !b)) ++ maskSelect xs m).Perm xs := by
  induction xs with
  | nil => intro m _; simp
  | cons x t ih =>
      intro m hm
      cases m with
      | nil => simp at hm
      | cons b mt =>
          have hm' : t.length = mt.length := by simpa using hm
          cases b with
          | true =>
              have hp : (maskSelect t (mt.map fun b => !b) ++ x :: maskSelect t mt).Perm
                  (x :: t) := List.perm_middle.trans ((ih mt hm').cons x)
              simpa using hp
          | false =>
              simpa using (ih mt hm').cons x

lemma maskSelect_length_add (xs : List α) (m : List Bool)
    (h : xs.length = m.length) :
    (maskSelect xs (m.map (fun b => !b))).length + (maskSelect xs m).length
      = xs.length := by
  have := (maskSelect_not_append_perm xs m h).length_eq
  simpa using this

/-- C2: the train/test split is grouped by participant and deterministic: a
window is in the test set iff its participant id is in `[2, 3]` (the test
pids are the filter of `pid` by membership in `pids_test`, the train pids the
filter by its negation), no participant id occurs in both splits, the two
splits together are a permutation of the windows (each window in exactly one
split), and labels, pids and spectrograms are selected by the same mask on
each side, so they stay aligned. -/
theorem participant_split_grouped_deterministic
    (y : List α) (pid : List Int) (Z : List β)
    (hy : y.length = pid.length) (hZ : Z.length = pid.length) :
    maskSelect pid (mask_test pid) = pid.filter (fun p => decide (p ∈ pids_test)) ∧
    maskSelect pid (mask_train pid) = pid.filter (fun p => !decide (p ∈ pids_test)) ∧
    (∀ p, p ∈ maskSelect pid (mask_train pid) → p ∉ maskSelect pid (mask_test pid)) ∧
    (maskSelect y (mask_train pid) ++ maskSelect y (mask_test pid)).Perm y ∧
    (maskSelect y (mask_train pid)).length + (maskSelect y (mask_test pid)).length
      = y.length ∧
    (maskSelect y (mask_train pid)).zip (maskSelect pid (mask_train pid))
      = maskSelect (y.zip pid) (mask_train pid) ∧
    (maskSelect y (mask_test pid)).zip (maskSelect pid (mask_test pid))
      = maskSelect (y.zip pid) (mask_test pid) ∧
    (maskSelect y (mask_train pid)).zip (maskSelect Z (mask_train pid))
      = maskSelect (y.zip Z) (mask_train pid) ∧
    (maskSelect y (mask_test pid)).zip (maskSelect Z (mask_test pid))
      = maskSelect (y.zip Z) (mask_test pid) := by
  have hyZ : y.length = Z.length := by rw [hy, hZ]
  have hmask : (mask_test pid).length = pid.length := by
    simp [mask_test]
  have htest : maskSelect pid (mask_test pid)
      = pid.filter (fun p => decide (p ∈ pids_test)) :=
    maskSelect_self_map _ pid
  have htrain : maskSelect pid (mask_train pid)
      = pid.filter (fun p => !decide (p ∈ pids_test)) := by
    have : mask_train pid = pid.map (fun p => !decide (p ∈ pids_test)) := by
      simp [mask_train, mask_test]
    rw [this, maskSelect_self_map]
  refine ⟨htest, htrain, ?_, ?_, ?_, ?_, ?_, ?_, ?_⟩
  · intro p hptr hpte
    rw [htrain] at hptr
    rw [htest] at hpte
    have h1 := List.of_mem_filter hptr
    have h2 := List.of_mem_filter hpte
    simp at h1 h2
    exact h1 h2
  · have := maskSelect_not_append_perm y (mask_test pid)
      (by rw [hy, hmask])
    simpa [mask_train] using this
  · have := maskSelect_length_add y (mask_test pid) (by rw [hy, hmask])
    simpa [mask_train] using this
  · exact maskSelect_zip y pid _ hy
  · exact maskSelect_zip y pid _ hy
  · exact maskSelect_zip y Z _ hyZ
  · exact maskSelect_zip y Z _ hyZ

/-- Witness for the split theorem at a concrete dataset of five windows and
participant ids `[1, 2, 5, 3, 2]`. -/
theorem participant_split_grouped_deterministic_witness :
    ([10, 20, 30, 40, 50] : List ℚ).length = ([1, 2, 5, 3, 2] : List Int).length ∧
    ([7, 8, 9, 6, 4] : List ℚ).length = ([1, 2, 5, 3, 2] : List Int).length ∧
    maskSelect ([1, 2, 5, 3, 2] : List Int) (mask_test [1, 2, 5, 3, 2])
      = [2, 3, 2] := by
  refine ⟨by decide, by decide, ?_⟩
  have h := participant_split_grouped_deterministic
    ([10, 20, 30, 40, 50] : List ℚ) ([1, 2, 5, 3, 2] : List Int)
    ([7, 8, 9, 6, 4] : List ℚ) (by decide) (by decide)
  rw [h.1]
  decide

/-! ## The mini-batch iterator `create_dataloader` (source lines 198–213)

The iterator materialises an index list (`np.random.permutation(arange(n))`
when shuffling, `arange(n)` otherwise), walks it in consecutive slices
`idxs[i : i+batch_size]`, and gathers `Z[idxs_batch]` (and `y[idxs_batch]`
when labels are supplied).  `chunksAux` is the slice walk; its `fuel`
argument only bounds the recursion depth, and any value of at least
`l.length` produces the loop's result (`chunks` passes `l.length`). -/

def chunksAux (bs : ℕ) : ℕ → List α → List (List α)
  | 0, _ => []
  | _ + 1, [] => []
  | fuel + 1, x :: t => (x :: t).take bs :: chunksAux bs fuel ((x :: t).drop bs)

/-- Consecutive slices `l[0:bs], l[bs:2*bs], …` of the index list, the batch
pattern of `for i in range(0, len(idxs), batch_size)`. -/
def chunks (l : List α) (bs : ℕ) : List (List α) := chunksAux bs l.length l

/-- Fancy indexing `Z[idxs]`: gather the rows of `Z` at the given indices. -/
def select (Z : List α) (idxs : List ℕ) : List α :=
  idxs.filterMap (fun k => Z[k]?)

/-- One batch iterator step stream without labels: `Z[idxs_batch]` per slice. -/
def create_dataloader (Z : List α) (idxs : List ℕ) (bs : ℕ) : List (List α) :=
  (chunks idxs bs).map (select Z)

/-- Batch iterator with labels: each yielded pair applies the same index
slice to `Z` and to `y`. -/
def create_dataloader_y (Z : List α) (y : List γ) (idxs : List ℕ) (bs : ℕ) :
    List (List α × List γ) :=
  (chunks idxs bs).map (fun ib => (select Z ib, select y ib))

lemma chunksAux_join (bs : ℕ) (hbs : 0 < bs) :
    ∀ (fuel : ℕ) (l : List α), l.length ≤ fuel → (chunksAux bs fuel l).flatten = l := by
  intro fuel
  induction fuel with
  | zero =>
      intro l hl
      have : l = [] := List.length_eq_zero.mp (Nat.le_zero.mp hl)
      simp [this, chunksAux]
  | succ fuel ih =>
      intro l hl
      cases l with
      | nil => simp [chunksAux]
      | cons x t =>
          have hlen : ((x :: t).drop bs).length ≤ fuel := by
            have := List.length_drop bs (x :: t)
            simp only [this]
            have : (x :: t).length ≤ fuel + 1 := hl
            omega
          simp only [chunksAux, List.flatten_cons, ih _ hlen, List.take_append_drop]

lemma chunks_join (l : List α) (bs : ℕ) (hbs : 0 < bs) :
    (chunks l bs).flatten = l :=
  chunksAux_join bs hbs l.length l (Nat.le_refl _)

lemma chunksAux_getD (bs : ℕ) (hbs : 0 < bs) :
    ∀ (fuel : ℕ) (l : List α) (j : ℕ), l.length ≤ fuel →
      (chunksAux bs fuel l).getD j [] = (l.drop (j * bs)).take bs := by
  intro fuel
  induction fuel with
  | zero =>
      intro l j hl
      have : l = [] := List.length_eq_zero.mp (Nat.le_zero.mp hl)
      simp [this, chunksAux]
  | succ fuel ih =>
      intro l j hl
      cases l with
      | nil => simp [chunksAux]
      | cons x t =>
          have hlen : ((x :: t).drop bs).length ≤ fuel := by
            have := List.length_drop bs (x :: t)
            simp only [this]
            have : (x :: t).length ≤ fuel + 1 := hl
            omega
          cases j with
          | zero => simp [chunksAux]
          | succ j =>
              have hj : (j + 1) * bs = bs + j * bs := by ring
              simp only [chunksAux, List.getD_cons_succ, ih _ j hlen,
                List.drop_drop, hj]

lemma chunks_getD (l : List α) (bs : ℕ) (hbs : 0 < bs) (j : ℕ) :
    (chunks l bs).getD j [] = (l.drop (j * bs)).take bs :=
  chunksAux_getD bs hbs l.length l j (Nat.le_refl _)

lemma select_append (Z : List α) (a b : List ℕ) :
    select Z (a ++ b) = select Z a ++ select Z b := by
  simp [select, List.filterMap_append]

lemma join_map_select (Z : List α) (L : List (List ℕ)) :
    (L.map (select Z)).flatten = select Z L.flatten := by
  induction L with
  | nil => simp [select]
  | cons a L ih => simp [select_append, ih]

lemma select_range_self (Z : List α) : select Z (List.range Z.length) = Z := by
  induction Z with
  | nil => simp [select]
  | cons z t ih =>
      have : List.range (t.length + 1) = 0 :: (List.range t.length).map Nat.succ :=
        List.range_succ_eq_map t.length
      simp only [List.length_cons, this, select, List.filterMap_cons,
        List.getElem?_cons_zero, List.filterMap_map]
      have : (List.range t.length).filterMap
          ((fun k => (z :: t)[k]?) ∘ Nat.succ)
          = (List.range t.length).filterMap (fun k => t[k]?) := by
        apply List.filterMap_congr
        intro k _
        simp
      rw [this]
      exact congrArg (z :: ·) ih

/-! ## `forward_by_batches` (source lines 215–226)

The model is evaluated (`cnn.eval()`, so batch normalisation uses its
running statistics and the network acts row by row on the batch) on
unshuffled batches of 1024 and the outputs are concatenated with
`torch.cat`.  The per-window action of the network is the function `m`. -/

def forward_by_batches (m : α → β) (Z : List α) : List β :=
  ((create_dataloader Z (List.range Z.length) 1024).map (List.map m)).flatten

lemma forward_by_batches_eq_map (m : α → β) (Z : List α) :
    forward_by_batches m Z = Z.map m := by
  have haux : ∀ L : List (List ℕ),
      (L.map (List.map m ∘ select Z)).flatten = (select Z L.flatten).map m := by
    intro L
    induction L with
    | nil => simp [select]
    | cons a L ih =>
        simp only [List.map_cons, List.flatten_cons, Function.comp_apply, ih,
          select_append, List.map_append]
  unfold forward_by_batches create_dataloader
  rw [List.map_map, haux, chunks_join _ _ (by norm_num), select_range_self]

/-- C9: `forward_by_batches` is order-preserving and equivalent to an
unbatched forward pass: concatenating the model's outputs over consecutive
unshuffled batches of 1024 yields exactly the model applied to every window
of `Z` in its original order, so row `k` of the predictions corresponds to
window `k` of the input. -/
theorem forward_by_batches_order_preserving (m : α → β) (Z : List α) :
    forward_by_batches m Z = Z.map m :=
  forward_by_batches_eq_map m Z

lemma getElem?_zip (Z : List α) :
    ∀ (y : List γ) (k : ℕ), (Z.zip y)[k]?
      = Z[k]?.bind (fun a => y[k]?.map (fun b => (a, b))) := by
  induction Z with
  | nil => intro y k; simp
  | cons z t ih =>
      intro y k
      cases y with
      | nil => simp
      | cons b yt =>
          cases k with
          | zero => simp
          | succ k => simpa using ih yt k

lemma getElem?_some_of_lt (Z : List α) (k : ℕ) (hk : k < Z.length) :
    ∃ a, Z[k]? = some a :=
  ⟨Z[k], List.getElem?_eq_getElem hk⟩

lemma getElem?_none_of_le (Z : List α) (k : ℕ) (hk : Z.length ≤ k) :
    Z[k]? = none :=
  List.getElem?_eq_none hk

lemma select_length_eq (Z : List α) (y : List γ) (h : y.length = Z.length) :
    ∀ idxs : List ℕ, (select Z idxs).length = (select y idxs).length := by
  intro idxs
  induction idxs with
  | nil => simp [select]
  | cons k t ih =>
      simp only [select, List.filterMap_cons] at ih ⊢
      by_cases hk : k < Z.length
      · obtain ⟨a, ha⟩ := getElem?_some_of_lt Z k hk
        obtain ⟨b, hb⟩ := getElem?_some_of_lt y k (by omega)
        simp [ha, hb, ih]
      · have ha := getElem?_none_of_le Z k (by omega)
        have hb := getElem?_none_of_le y k (by omega)
        simp [ha, hb, ih]

lemma select_zip (Z : List α) (y : List γ) (h : y.length = Z.length) :
    ∀ idxs : List ℕ, (select Z idxs).zip (select y idxs)
      = select (Z.zip y) idxs := by
  intro idxs
  induction idxs with
  | nil => simp [select]
  | cons k t ih =>
      simp only [select, List.filterMap_cons] at ih ⊢
      by_cases hk : k < Z.length
      · obtain ⟨a, ha⟩ := getElem?_some_of_lt Z k hk
        obtain ⟨b, hb⟩ := getElem?_some_of_lt y k (by omega)
        have hz : (Z.zip y)[k]? = some (a, b) := by
          rw [getElem?_zip]
          simp [ha, hb]
        simp [ha, hb, hz, ih]
      · have ha := getElem?_none_of_le Z k (by omega)
        have hb := getElem?_none_of_le y k (by omega)
        have hz : (Z.zip y)[k]? = none := by
          rw [getElem?_zip]
          simp [ha, hb]
        simp [ha, hb, hz, ih]

lemma select_mem (Z : List α) (idxs : List ℕ) :
    ∀ q ∈ select Z idxs, q ∈ Z := by
  intro q hq
  simp only [select, List.mem_filterMap] at hq
  obtain ⟨k, -, hk⟩ := hq
  exact List.mem_iff_getElem?.mpr ⟨k, hk⟩

/-- C10: `create_dataloader` keeps inputs and labels aligned under
shuffling: every yielded pair applies the same index slice to `Z` and to
`y`, so the two components have the same length and every positionwise pair
`(Z_batch[j], y_batch[j])` is one of the original (window, label) pairs of
the dataset — for every index list, hence for every shuffle setting, and
every batch size. -/
theorem create_dataloader_label_alignment (Z : List α) (y : List γ)
    (idxs : List ℕ) (bs : ℕ) (h : y.length = Z.length) :
    ∀ p ∈ create_dataloader_y Z y idxs bs,
      p.1.length = p.2.length ∧ ∀ q ∈ p.1.zip p.2, q ∈ Z.zip y := by
  intro p hp
  simp only [create_dataloader_y, List.mem_map] at hp
  obtain ⟨ib, -, rfl⟩ := hp
  dsimp only
  refine ⟨select_length_eq Z y h ib, ?_⟩
  intro q hq
  rw [select_zip Z y h ib] at hq
  exact select_mem (Z.zip y) ib q hq

/-- Witness for the dataloader alignment theorem: a two-window dataset, the
shuffled index order `[1, 0]`, and batch size 1. -/
theorem create_dataloader_label_alignment_witness :
    ([5, 6] : List ℚ).length = ([10, 20] : List ℚ).length ∧
    (∀ p ∈ create_dataloader_y ([10, 20] : List ℚ) ([5, 6] : List ℚ) [1, 0] 1,
      p.1.length = p.2.length ∧
        ∀ q ∈ p.1.zip p.2, q ∈ (([10, 20] : List ℚ).zip ([5, 6] : List ℚ))) :=
  ⟨by decide, create_dataloader_label_alignment [10, 20] [5, 6] [1, 0] 1 (by decide)⟩

/-! ## The training epochs (source lines 260, 282–296)

`num_epoch = 10`; each epoch creates a fresh shuffled dataloader over the
training set.  `np.random.permutation(arange(n))` is a third-party call: it
is modelled by the `perms` argument together with the hypothesis that each
drawn index list is a permutation of `range n`. -/

def num_epoch : ℕ := 10

/-- The index batches presented during training: one chunked permutation per
epoch, for `num_epoch` epochs. -/
def trainingEpochIdxBatches (perms : ℕ → List ℕ) (bs : ℕ) :
    List (List (List ℕ)) :=
  (List.range num_epoch).map (fun e => chunks (perms e) bs)

/-- C5: training makes exactly `num_epoch = 10` passes, and within each pass
the shuffled dataloader presents every training example exactly once: the
epoch's index batches are the consecutive size-`bs` slices of that epoch's
permutation (so the last batch may be smaller), and their concatenation is a
permutation of `0 .. n-1` — no index is skipped or repeated. -/
theorem training_epoch_batches_partition (n bs : ℕ) (perms : ℕ → List ℕ)
    (hbs : 0 < bs) (hperm : ∀ e, (perms e).Perm (List.range n)) :
    num_epoch = 10 ∧
    (trainingEpochIdxBatches perms bs).length = num_epoch ∧
    ∀ e, e < num_epoch →
      ((trainingEpochIdxBatches perms bs).getD e []).flatten.Perm (List.range n) ∧
      ∀ j, ((trainingEpochIdxBatches perms bs).getD e []).getD j []
        = ((perms e).drop (j * bs)).take bs := by
  refine ⟨rfl, by simp [trainingEpochIdxBatches], ?_⟩
  intro e he
  have hget : (trainingEpochIdxBatches perms bs).getD e [] = chunks (perms e) bs := by
    have hlen : e < ((List.range num_epoch).map
        (fun e => chunks (perms e) bs)).length := by
      simpa using he
    rw [trainingEpochIdxBatches, List.getD_eq_getElem _ _ hlen,
      List.getElem_map, List.getElem_range]
  refine ⟨?_, ?_⟩
  · rw [hget, chunks_join _ _ hbs]
    exact hperm e
  · intro j
    rw [hget, chunks_getD _ _ hbs]

/-- Witness for the epoch/batch theorem: three training windows, batch size
2, and the same concrete permutation `[2, 0, 1]` drawn in every epoch. -/
theorem training_epoch_batches_partition_witness :
    0 < 2 ∧ (∀ _e : ℕ, ([2, 0, 1] : List ℕ).Perm (List.range 3)) ∧
    (num_epoch = 10 ∧
      (trainingEpochIdxBatches (fun _ => [2, 0, 1]) 2).length = num_epoch ∧
      ∀ e, e < num_epoch →
        ((trainingEpochIdxBatches (fun _ => [2, 0, 1]) 2).getD e []).flatten.Perm
          (List.range 3) ∧
        ∀ j, ((trainingEpochIdxBatches (fun _ => [2, 0, 1]) 2).getD e []).getD j []
          = (([2, 0, 1] : List ℕ).drop (j * 2)).take 2) := by
  have hp : ∀ e : ℕ, ([2, 0, 1] : List ℕ).Perm (List.range 3) := fun _ => by decide
  exact ⟨by decide, hp,
    training_epoch_batches_partition 3 2 (fun _ => [2, 0, 1]) (by decide) hp⟩

/-! ## Chunked spectrogram staging (source lines 78–90)

The script preallocates a memory-mapped array `Z` and then, in chunks of
4096 windows, computes the STFT of `X[i : i+4096]` along the last axis,
takes `log(abs(.) + 1e-16)`, and assigns the result into the slice
`Z[i : i+4096]`. -/

def stage_chunk : ℕ := 4096

/-- Slice assignment `Z[i : i+len(b)] = b` on the staging array. -/
def setSlice (Z : List α) (i : ℕ) (b : List α) : List α :=
  Z.take i ++ b ++ Z.drop (i + b.length)

lemma setSlice_length (Z : List α) (i : ℕ) (b : List α)
    (hi : i ≤ Z.length) (hb : b.length ≤ Z.length - i) :
    (setSlice Z i b).length = Z.length := by
  simp only [setSlice, List.length_append, List.length_take, List.length_drop]
  omega

lemma setSlice_take (Z : List α) (i : ℕ) (b : List α) (c : ℕ)
    (hi : i ≤ Z.length) (hb : b.length = min c (Z.length - i)) :
    (setSlice Z i b).take (i + c) = Z.take i ++ b := by
  by_cases hcase : c ≤ Z.length - i
  · have hpre : (Z.take i ++ b).length = i + c := by
      simp only [List.length_append, List.length_take]
      omega
    exact List.take_left' hpre
  · have hdrop : Z.drop (i + b.length) = [] := List.drop_eq_nil_of_le (by omega)
    have hlen2 : (setSlice Z i b).length ≤ i + c := by
      simp only [setSlice, hdrop, List.append_nil, List.length_append,
        List.length_take]
      omega
    rw [List.take_of_length_le hlen2]
    simp only [setSlice, hdrop, List.append_nil]

/-- The staging loop `for i in range(0, len(X), 4096)`: per chunk, apply the
per-window transform `f` to `X[i : i+4096]` and assign the result into the
slice `Z[i : i+4096]`.  The `fuel` argument only bounds the recursion depth;
`stageZ` passes `X.length`, which always suffices. -/
def stageFrom (f : α → β) (X : List α) : ℕ → List β → ℕ → List β
  | 0, Z, _ => Z
  | fuel + 1, Z, i =>
      if i < X.length then
        stageFrom f X fuel (setSlice Z i (((X.drop i).take stage_chunk).map f))
          (i + stage_chunk)
      else Z

/-- The staged dataset: run the chunk loop over the preallocated array `Z0`. -/
def stageZ (f : α → β) (X : List α) (Z0 : List β) : List β :=
  stageFrom f X X.length Z0 0

lemma stageFrom_spec (f : α → β) (X : List α) :
    ∀ (fuel i : ℕ) (Z : List β), Z.length = X.length →
      X.length ≤ i + fuel * stage_chunk →
      stageFrom f X fuel Z i = Z.take i ++ (X.drop i).map f := by
  intro fuel
  induction fuel with
  | zero =>
      intro i Z hZ hle
      simp only [Nat.zero_mul, Nat.add_zero] at hle
      have h1 : Z.take i = Z := List.take_of_length_le (by omega)
      have h2 : X.drop i = [] := List.drop_eq_nil_of_le hle
      simp [stageFrom, h1, h2]
  | succ fuel ih =>
      intro i Z hZ hle
      by_cases hi : i < X.length
      · have hb : (((X.drop i).take stage_chunk).map f).length
            = min stage_chunk (X.length - i) := by
          simp
        have hsl : (setSlice Z i (((X.drop i).take stage_chunk).map f)).length
            = Z.length :=
          setSlice_length Z i _ (by omega) (by omega)
        have hrec := ih (i + stage_chunk)
          (setSlice Z i (((X.drop i).take stage_chunk).map f))
          (by rw [hsl, hZ])
          (by
            have hsucc : (fuel + 1) * stage_chunk
                = stage_chunk + fuel * stage_chunk := by ring
            omega)
        simp only [stageFrom, if_pos hi, hrec]
        have htake : (setSlice Z i (((X.drop i).take stage_chunk).map f)).take
            (i + stage_chunk) = Z.take i ++ ((X.drop i).take stage_chunk).map f :=
          setSlice_take Z i _ stage_chunk (by omega) (by rw [hb, hZ])
        rw [htake, List.append_assoc]
        congr 1
        rw [← List.map_append]
        congr 1
        rw [← List.drop_drop, List.take_append_drop]
      · have h1 : Z.take i = Z := List.take_of_length_le (by omega)
        have h2 : X.drop i = [] := List.drop_eq_nil_of_le (by omega)
        simp [stageFrom, hi, h1, h2]

lemma stageZ_eq_map (f : α → β) (X : List α) (Z0 : List β)
    (h : Z0.length = X.length) : stageZ f X Z0 = X.map f := by
  have hb : X.length ≤ 0 + X.length * stage_chunk := by
    simp only [stage_chunk, Nat.zero_add]
    omega
  have hspec := stageFrom_spec f X X.length 0 Z0 h hb
  simpa [stageZ] using hspec

/-- C4: chunked staging equals a single whole-dataset pass: because the
transform is applied independently per window, computing it on consecutive
chunks of 4096 windows and writing each result into the corresponding slice
of the preallocated array yields, for every dataset `X` and every
preallocated array of matching length, exactly `X.map f` — the same array a
single call on all of `X` would produce. -/
theorem chunked_staging_eq_single_pass (f : α → β) (X : List α) (Z0 : List β)
    (h : Z0.length = X.length) : stageZ f X Z0 = X.map f :=
  stageZ_eq_map f X Z0 h

/-- Witness for the chunked-staging theorem on a concrete three-window
dataset. -/
theorem chunked_staging_eq_single_pass_witness :
    ([0, 0, 0] : List ℚ).length = ([1, 2, 3] : List ℚ).length ∧
    stageZ (fun q : ℚ => q + 1) [1, 2, 3] [0, 0, 0]
      = ([1, 2, 3] : List ℚ).map (fun q => q + 1) :=
  ⟨by decide, chunked_staging_eq_single_pass (fun q : ℚ => q + 1) [1, 2, 3]
    [0, 0, 0] (by decide)⟩

/-- Additive guard `1e-16` inside the log (source line 87). -/
def logGuard : ℚ := 1 / 10000000000000000

/-- Per-window transform of staging lines 85–87.  `scipy.signal.stft`
(`nperseg=256, noverlap=232, axis=-1, detrend='constant'`) is a third-party
call: `stft1` abstracts the 1-D STFT it performs on one channel (a matrix of
complex coefficients, frequency rows by time columns, complex numbers as
pairs), and `axis=-1` means every (window, channel) slice is transformed
independently.  `np.abs` is the complex modulus `cabs` and `np.log` the
elementwise logarithm `lg`, both abstracted; the script composes them as
`log(abs(stft) + 1e-16)` elementwise. -/
def log_mag_spectrogram (stft1 : List ℚ → List (List (ℚ × ℚ)))
    (cabs : ℚ × ℚ → ℚ) (lg : ℚ → ℚ) (w : List (List ℚ)) :
    List (List (List ℚ)) :=
  w.map (fun ch => (stft1 ch).map (fun row => row.map (fun z => lg (cabs z + logGuard))))

/-- The staged spectrogram dataset `Z` of source lines 79–90: the chunked
staging loop run with the per-window log-magnitude transform. -/
def staged_spectrograms (stft1 : List ℚ → List (List (ℚ × ℚ)))
    (cabs : ℚ × ℚ → ℚ) (lg : ℚ → ℚ) (X : List (List (List ℚ)))
    (Z0 : List (List (List (List ℚ)))) : List (List (List (List ℚ))) :=
  stageZ (log_mag_spectrogram stft1 cabs lg) X Z0

lemma getD_map_of_lt (f : α → β) (l : List α) (i : ℕ) (h : i < l.length)
    (d : β) (d' : α) : (l.map f).getD i d = f (l.getD i d') := by
  rw [List.getD_eq_getElem _ _ (by simpa using h), List.getElem_map,
    List.getD_eq_getElem _ _ h]

/-- C3: every staged entry is the guarded log-magnitude of the corresponding
STFT coefficient: for every window `i`, channel `c`, and spectrogram cell
`(fb, t)` in range, the staged value `Z[i, c, fb, t]` equals
`lg (cabs (STFT(X[i, c])[fb, t]) + 1e-16)`, where `stft1` is the per-channel
STFT with `nperseg=256, noverlap=232`, constant detrending, taken along the
last axis. -/
theorem staged_entry_is_log_magnitude
    (stft1 : List ℚ → List (List (ℚ × ℚ))) (cabs : ℚ × ℚ → ℚ) (lg : ℚ → ℚ)
    (X : List (List (List ℚ))) (Z0 : List (List (List (List ℚ))))
    (h0 : Z0.length = X.length) (i c fb t : ℕ)
    (hi : i < X.length) (hc : c < (X.getD i []).length)
    (hf : fb < (stft1 ((X.getD i []).getD c [])).length)
    (ht : t < ((stft1 ((X.getD i []).getD c [])).getD fb []).length) :
    ((((staged_spectrograms stft1 cabs lg X Z0).getD i []).getD c []).getD fb
        []).getD t 0
      = lg (cabs (((stft1 ((X.getD i []).getD c [])).getD fb []).getD t (0, 0))
          + logGuard) := by
  have hstage : staged_spectrograms stft1 cabs lg X Z0
      = X.map (log_mag_spectrogram stft1 cabs lg) := stageZ_eq_map _ _ _ h0
  rw [hstage, getD_map_of_lt _ X i hi _ ([] : List (List ℚ))]
  simp only [log_mag_spectrogram]
  rw [getD_map_of_lt _ (X.getD i []) c hc _ ([] : List ℚ)]
  rw [getD_map_of_lt _ (stft1 ((X.getD i []).getD c [])) fb hf _
    ([] : List (ℚ × ℚ))]
  rw [getD_map_of_lt _ _ t ht _ ((0, 0) : ℚ × ℚ)]

/-- Witness for the staged-entry theorem: one window of one channel `[7]`,
with the library kernels instantiated concretely. -/
theorem staged_entry_is_log_magnitude_witness :
    ([([] : List (List (List ℚ)))].length
        = ([[[(7 : ℚ)]]] : List (List (List ℚ))).length) ∧
    ((((staged_spectrograms (fun ch => [[(ch.getD 0 0, 0)]]) (fun z => z.1)
        (fun q => q) [[[(7 : ℚ)]]] [([] : List (List (List ℚ)))]).getD 0
          []).getD 0 []).getD 0 []).getD 0 0
      = 7 + logGuard := by
  refine ⟨by decide, ?_⟩
  have h := staged_entry_is_log_magnitude (fun ch => [[(ch.getD 0 0, 0)]])
    (fun z => z.1) (fun q => q) [[[(7 : ℚ)]]] [([] : List (List (List ℚ)))]
    (by decide) 0 0 0 0 (by decide) (by decide) (by decide) (by decide)
  exact h.trans (by simp)

/-! ## Shape of the preallocated staging array (source lines 78–88) -/

/-- STFT segment length (source line 78). -/
def NPERSEG : ℕ := 256

/-- STFT overlap (source line 78). -/
def NOVERLAP : ℕ := 232

/-- Time-bin count of the preallocated staging array (source line 82):
`X.shape[-1] // (NPERSEG - NOVERLAP) + 1`. -/
def preallocTimeBins (L : ℕ) : ℕ := L / (NPERSEG - NOVERLAP) + 1

/-- Output dimensions `(frequency bins, time frames)` of `scipy.signal.stft`
on a signal of length `L`, or `none` when the call raises.  Modelled from the
spec: the STFT is a third-party library call; per its documented behavior,
when the signal is shorter than `nperseg` the segment length is clamped to
the signal length (with a warning) and `nfft` follows the clamped value; a
`ValueError` is raised when `noverlap` is not less than the (clamped)
segment length — modelled as `none`; otherwise, with the defaults
`boundary='zeros'` (extension by `nperseg//2` zeros per side) and
`padded=True` (zero-padding to a whole number of hop steps), the onesided
output has `nperseg//2 + 1` frequency rows and
`⌈(L + 2*(nperseg//2) - nperseg) / (nperseg - noverlap)⌉ + 1` time frames,
all with the clamped segment length.  The source's own comment (line 78)
records the resulting `129 × 126` size for the dataset's 3000-sample
windows, which this model reproduces. -/
def stftOutputDims (L nperseg noverlap : ℕ) : Option (ℕ × ℕ) :=
  if noverlap < min nperseg L then
    some (min nperseg L / 2 + 1,
      ((L + 2 * (min nperseg L / 2) - min nperseg L)
          + (min nperseg L - noverlap) - 1) / (min nperseg L - noverlap) + 1)
  else none

/-- Shape of one staged chunk `Z_batch`, when the STFT succeeds:
`X[i : i+4096]` holds `min 4096 (n - i)` windows of `c` channels, and the
STFT of each channel is a `(frequency bins) × (time frames)` matrix. -/
def stftChunkShape (n c L i : ℕ) : Option (ℕ × ℕ × ℕ × ℕ) :=
  (stftOutputDims L NPERSEG NOVERLAP).map
    (fun ft => (min stage_chunk (n - i), c, ft.1, ft.2))

/-- Shape of the destination slice `Z[i : i+4096]` of the preallocated
array of shape `(n, c, NPERSEG//2+1, L//(NPERSEG-NOVERLAP)+1)`. -/
def preallocSliceShape (n c L i : ℕ) : ℕ × ℕ × ℕ × ℕ :=
  (min (i + stage_chunk) n - i, c, NPERSEG / 2 + 1, preallocTimeBins L)

/-- Counterexample to C8 as stated, at window length `L = 300`: the library
STFT runs fine (no clamping, `300 ≥ 256`) and produces
`⌈300/24⌉ + 1 = 14` time frames, but the preallocated array provides only
`300 // 24 + 1 = 13` time bins, so the chunk assignment is not
shape-compatible for every window length.  Two further regimes break the
universal claim: at `L = 240` the clamped segment length changes both the
frequency-bin count and the hop (output `121 × 31` versus the buffer's
`129 × 11`), and at `L = 25` the call raises (`noverlap ≥` clamped
`nperseg`). -/
theorem prealloc_shape_mismatch_at_300 :
    stftChunkShape 1 3 300 0 ≠ some (preallocSliceShape 1 3 300 0) ∧
    stftOutputDims 300 NPERSEG NOVERLAP = some (129, 14) ∧
    preallocTimeBins 300 = 13 ∧
    stftOutputDims 240 NPERSEG NOVERLAP = some (121, 31) ∧
    (NPERSEG / 2 + 1, preallocTimeBins 240) = (129, 11) ∧
    stftOutputDims 25 NPERSEG NOVERLAP = none := by
  decide

/-- C8 (amended): the staging buffer is large enough whenever the window
length `L` is at least `NPERSEG = 256` (so the library does not clamp the
segment length) and is a multiple of the hop `NPERSEG - NOVERLAP = 24` — as
it is for the dataset's 3000-sample windows: then the library STFT succeeds
and the preallocated slice `Z[i : i+4096]` and the per-chunk STFT output
have exactly the same shape `(min 4096 (n-i), c, 129, L/24 + 1)`, so no
chunk assignment truncates data or fails. -/
theorem prealloc_shape_matches_of_long_hop_dvd (n c L i : ℕ)
    (hlen : NPERSEG ≤ L) (hdvd : (NPERSEG - NOVERLAP) ∣ L) :
    stftChunkShape n c L i = some (preallocSliceShape n c L i) := by
  obtain ⟨k, rfl⟩ := hdvd
  simp only [NPERSEG, NOVERLAP] at hlen
  simp only [stftChunkShape, stftOutputDims, preallocSliceShape,
    preallocTimeBins, NPERSEG, NOVERLAP, stage_chunk]
  rw [Nat.min_eq_left hlen, if_pos (by norm_num)]
  refine congrArg some ?_
  simp only [Prod.mk.injEq]
  refine ⟨by omega, trivial, trivial, by omega⟩

/-- Witness for the amended shape claim at the dataset's actual window length
`L = 3000` (`3000 ≥ 256` and `24 ∣ 3000`), with `129 × 126` spectrogram
cells. -/
theorem prealloc_shape_matches_of_long_hop_dvd_witness :
    NPERSEG ≤ 3000 ∧ (NPERSEG - NOVERLAP) ∣ 3000 ∧
    stftChunkShape 10000 3 3000 4096 = some (preallocSliceShape 10000 3 3000 4096) ∧
    stftOutputDims 3000 NPERSEG NOVERLAP = some (129, 126) :=
  ⟨by decide, by decide,
    prealloc_shape_matches_of_long_hop_dvd 10000 3 3000 4096 (by decide)
      (by decide),
    by decide⟩

/-! ## The CNN architecture (source lines 143–184)

The network is the `nn.Sequential` of `CNN.__init__`, parameterised exactly
as in the source (`output_size`, `in_channels`, `num_filters_init`).  Its
value-level action is a stack of learned convolutions; the claim is about
the fixed topology and the output shape, so the layers are embedded with
the shape semantics of `torch.nn.Conv2d`
(`out = (in + 2*padding - kernel) / stride + 1`, floor division), with
batch normalisation and ReLU preserving shapes. -/

structure Conv2dSpec where
  inC : ℕ
  outC : ℕ
  kh : ℕ
  kw : ℕ
  sh : ℕ
  sw : ℕ
  ph : ℕ
  pw : ℕ
deriving DecidableEq

inductive Layer where
  | conv2d : Conv2dSpec → Layer
  | batchNorm2d : ℕ → Layer
  | relu : Layer
deriving DecidableEq

/-- The layer stack of `CNN.__init__` (source lines 147–174), in source
order: six conv+batchnorm+ReLU blocks, then a final 1x1 convolution with
bias producing `output_size` channels. -/
def cnnSequential (output_size in_channels num_filters_init : ℕ) : List Layer :=
  [Layer.conv2d ⟨in_channels, num_filters_init, 5, 4, 2, 2, 1, 1⟩,
   Layer.batchNorm2d num_filters_init,
   Layer.relu,
   Layer.conv2d ⟨num_filters_init, num_filters_init * 2, 4, 3, 2, 2, 1, 1⟩,
   Layer.batchNorm2d (num_filters_init * 2),
   Layer.relu,
   Layer.conv2d ⟨num_filters_init * 2, num_filters_init * 4, 4, 4, 2, 2, 1, 1⟩,
   Layer.batchNorm2d (num_filters_init * 4),
   Layer.relu,
   Layer.conv2d ⟨num_filters_init * 4, num_filters_init * 8, 4, 4, 2, 2, 1, 1⟩,
   Layer.batchNorm2d (num_filters_init * 8),
   Layer.relu,
   Layer.conv2d ⟨num_filters_init * 8, num_filters_init * 16, 4, 4, 2, 2, 1, 1⟩,
   Layer.batchNorm2d (num_filters_init * 16),
   Layer.relu,
   Layer.conv2d ⟨num_filters_init * 16, num_filters_init * 32, 4, 4, 1, 1, 0, 0⟩,
   Layer.batchNorm2d (num_filters_init * 32),
   Layer.relu,
   Layer.conv2d ⟨num_filters_init * 32, output_size, 1, 1, 1, 1, 0, 0⟩]

/-- Output spatial extent of a 2D convolution along one axis
(`torch.nn.Conv2d` shape rule). -/
def convOut (d k s p : ℕ) : ℕ := (d + 2 * p - k) / s + 1

/-- Shape action of one layer on a `(channels, height, width)` image shape;
`none` when the layer cannot accept the shape. -/
def layerShape : Layer → ℕ × ℕ × ℕ → Option (ℕ × ℕ × ℕ)
  | Layer.conv2d spec, (ch, h, w) =>
      if ch = spec.inC ∧ spec.kh ≤ h + 2 * spec.ph ∧ spec.kw ≤ w + 2 * spec.pw
          ∧ 0 < spec.sh ∧ 0 < spec.sw then
        some (spec.outC, convOut h spec.kh spec.sh spec.ph,
          convOut w spec.kw spec.sw spec.pw)
      else none
  | Layer.batchNorm2d nch, (ch, h, w) => if ch = nch then some (ch, h, w) else none
  | Layer.relu, s => some s

/-- Shape action of a layer stack. -/
def seqShape (ls : List Layer) (s : ℕ × ℕ × ℕ) : Option (ℕ × ℕ × ℕ) :=
  ls.foldl (fun acc l => acc.bind (layerShape l)) (some s)

/-- Shape of `CNN.forward` on a batch of `N` images: run the sequential, then
flatten with `.view(x.shape[0], -1)` to `(N, channels*height*width)`. -/
def cnnForwardShape (output_size in_channels num_filters_init N : ℕ)
    (s : ℕ × ℕ × ℕ) : Option (ℕ × ℕ) :=
  (seqShape (cnnSequential output_size in_channels num_filters_init) s).map
    (fun t => (N, t.1 * t.2.1 * t.2.2))

/-- Number of activity classes.  Modelled from the spec: `utils.NUM_CLASSES`
is repository code not under `src/`; the spec and the source's architecture
comment fix five classes (`output_size = 5`). -/
def NUM_CLASSES : ℕ := 5

def isConv2d : Layer → Bool
  | Layer.conv2d _ => true
  | _ => false

def isBatchNorm2d : Layer → Bool
  | Layer.batchNorm2d _ => true
  | _ => false

def isRelu : Layer → Bool
  | Layer.relu => true
  | _ => false

/-- C6: the network instantiated as in the script (`output_size = 5`,
`in_channels = 3`, `num_filters_init = 8`) is a fixed downsampling pyramid of
six conv+batchnorm+ReLU blocks and a final 1x1 convolution (seven
convolutions in a 19-layer stack ending in the 1x1 conv), and for every
batch of `N` spectrograms of shape `(3, 129, 126)` the forward pass reaches
spatial extent `(5, 1, 1)` and, after `.view(N, -1)`, returns shape
`(N, 5) = (N, NUM_CLASSES)`. -/
theorem cnn_forward_shape_five_classes (N : ℕ) :
    (cnnSequential 5 3 8).length = 19 ∧
    ((cnnSequential 5 3 8).filter isConv2d).length = 7 ∧
    ((cnnSequential 5 3 8).filter isBatchNorm2d).length = 6 ∧
    ((cnnSequential 5 3 8).filter isRelu).length = 6 ∧
    (cnnSequential 5 3 8).getLast? = some (Layer.conv2d ⟨256, 5, 1, 1, 1, 1, 0, 0⟩) ∧
    seqShape (cnnSequential 5 3 8) (3, 129, 126) = some (5, 1, 1) ∧
    cnnForwardShape 5 3 8 N (3, 129, 126) = some (N, NUM_CLASSES) := by
  refine ⟨by decide, by decide, by decide, by decide, by decide, by decide, ?_⟩
  have hseq : seqShape (cnnSequential 5 3 8) (3, 129, 126) = some (5, 1, 1) := by
    decide
  rw [cnnForwardShape, hseq]
  rfl

/-! ## Per-epoch evaluation and score histories (source lines 282–317)

Each epoch runs the mini-batch loop (appending one loss per batch), then
fits exactly one HMM on the training split (`utils.train_hmm` is repository
code not under `src/`: it returns the prior/emission/transition parameters,
abstracted as a value of type `H`), then evaluates the smoothed model once
on the train split (with `pid_train`) and once on the test split (with
`pid_test`), appending the resulting kappa and accuracy to the respective
histories. -/

structure TrainHistories where
  lossHistory : List ℚ
  kappaTrain : List ℚ
  kappaTest : List ℚ
  accTrain : List ℚ
  accTest : List ℚ
  hmmFitCount : ℕ

def initialHistories : TrainHistories := ⟨[], [], [], [], [], 0⟩

/-- One epoch of the training loop (source lines 285–317), abstracted over
the numeric results: `losses e` are the per-batch losses of epoch `e`,
`fitHmm e` the HMM fitted after epoch `e`, and `evalTrain`/`evalTest` the
`(kappa, accuracy)` scores of `evaluate_model` on the train split (grouped
by `pid_train`) and the test split (grouped by `pid_test`). -/
def epochBody (H : Type) (fitHmm : ℕ → H) (evalTrain evalTest : H → ℚ × ℚ)
    (losses : ℕ → List ℚ) (e : ℕ) (s : TrainHistories) : TrainHistories :=
  ⟨s.lossHistory ++ losses e,
   s.kappaTrain ++ [(evalTrain (fitHmm e)).1],
   s.kappaTest ++ [(evalTest (fitHmm e)).1],
   s.accTrain ++ [(evalTrain (fitHmm e)).2],
   s.accTest ++ [(evalTest (fitHmm e)).2],
   s.hmmFitCount + 1⟩

/-- The `for i in tqdm(range(num_epoch))` training loop, tracking the
logged histories. -/
def trainingRun (H : Type) (fitHmm : ℕ → H) (evalTrain evalTest : H → ℚ × ℚ)
    (losses : ℕ → List ℚ) : TrainHistories :=
  (List.range num_epoch).foldl
    (fun s e => epochBody H fitHmm evalTrain evalTest losses e s)
    initialHistories

lemma epoch_fold_lengths (H : Type) (fitHmm : ℕ → H)
    (evalTrain evalTest : H → ℚ × ℚ) (losses : ℕ → List ℚ) :
    ∀ (n : ℕ) (s : TrainHistories),
      ((List.range n).foldl
        (fun s e => epochBody H fitHmm evalTrain evalTest losses e s) s).kappaTrain.length
          = s.kappaTrain.length + n ∧
      ((List.range n).foldl
        (fun s e => epochBody H fitHmm evalTrain evalTest losses e s) s).kappaTest.length
          = s.kappaTest.length + n ∧
      ((List.range n).foldl
        (fun s e => epochBody H fitHmm evalTrain evalTest losses e s) s).accTrain.length
          = s.accTrain.length + n ∧
      ((List.range n).foldl
        (fun s e => epochBody H fitHmm evalTrain evalTest losses e s) s).accTest.length
          = s.accTest.length + n ∧
      ((List.range n).foldl
        (fun s e => epochBody H fitHmm evalTrain evalTest losses e s) s).hmmFitCount
          = s.hmmFitCount + n := by
  intro n
  induction n with
  | zero => intro s; simp
  | succ n ih =>
      intro s
      rw [List.range_succ, List.foldl_append]
      simp only [List.foldl_cons, List.foldl_nil]
      obtain ⟨h1, h2, h3, h4, h5⟩ := ih s
      set t := (List.range n).foldl
        (fun s e => epochBody H fitHmm evalTrain evalTest losses e s) s with ht
      refine ⟨?_, ?_, ?_, ?_, ?_⟩
      · show (t.kappaTrain ++ [(evalTrain (fitHmm n)).1]).length
            = s.kappaTrain.length + (n + 1)
        simp only [List.length_append, List.length_cons, List.length_nil, h1]
        omega
      · show (t.kappaTest ++ [(evalTest (fitHmm n)).1]).length
            = s.kappaTest.length + (n + 1)
        simp only [List.length_append, List.length_cons, List.length_nil, h2]
        omega
      · show (t.accTrain ++ [(evalTrain (fitHmm n)).2]).length
            = s.accTrain.length + (n + 1)
        simp only [List.length_append, List.length_cons, List.length_nil, h3]
        omega
      · show (t.accTest ++ [(evalTest (fitHmm n)).2]).length
            = s.accTest.length + (n + 1)
        simp only [List.length_append, List.length_cons, List.length_nil, h4]
        omega
      · show t.hmmFitCount + 1 = s.hmmFitCount + (n + 1)
        omega

/-- C7: after every epoch exactly one HMM is fitted on the training split
and the smoothed predictions are scored once on the train split and once on
the test split; hence at the end of training each of the four score
histories has length exactly `num_epoch`, and exactly `num_epoch` HMMs were
fitted. -/
theorem per_epoch_histories_lengths (H : Type) (fitHmm : ℕ → H)
    (evalTrain evalTest : H → ℚ × ℚ) (losses : ℕ → List ℚ) :
    (trainingRun H fitHmm evalTrain evalTest losses).kappaTrain.length = num_epoch ∧
    (trainingRun H fitHmm evalTrain evalTest losses).kappaTest.length = num_epoch ∧
    (trainingRun H fitHmm evalTrain evalTest losses).accTrain.length = num_epoch ∧
    (trainingRun H fitHmm evalTrain evalTest losses).accTest.length = num_epoch ∧
    (trainingRun H fitHmm evalTrain evalTest losses).hmmFitCount = num_epoch := by
  have h := epoch_fold_lengths H fitHmm evalTrain evalTest losses num_epoch
    initialHistories
  simpa [trainingRun, initialHistories] using h

/-! ## The input handed to the Viterbi decoder (source lines 228–245)

`train_hmm` fits the HMM parameters from
`F.softmax(forward_by_batches(cnn, Z), dim=1)` — the probability sequence —
while `evaluate_model` computes
`torch.argmax(F.softmax(Y_pred, dim=1), dim=1)` and hands that class-index
sequence to `utils.viterbi` (repository code not under `src/`; the claim
concerns only what is passed to it).  `F.softmax` divides the exponential of
each score by the row sum of exponentials; `exp` is a third-party numeric
kernel, abstracted as the parameter `e` (universally quantified, assumed
positive and strictly order-preserving where the theorems need it). -/

/-- Row softmax `F.softmax(v, dim=1)` with exponential kernel `e`. -/
def softmaxRow (e : ℚ → ℚ) (v : List ℚ) : List ℚ :=
  v.map (fun x => e x / (v.map e).sum)

/-- Largest entry of a row (0 for an empty row). -/
def listMax : List ℚ → ℚ
  | [] => 0
  | [x] => x
  | x :: y :: t => max x (listMax (y :: t))

/-- `torch.argmax` on one row: index of the first maximal entry. -/
def argmaxIdx : List ℚ → ℕ
  | [] => 0
  | [_] => 0
  | x :: y :: t => if x < listMax (y :: t) then argmaxIdx (y :: t) + 1 else 0

/-- The sequence `evaluate_model` hands to `utils.viterbi` (source lines
238–242): forward the network by batches, softmax each row, take each row's
argmax — one class index per window. -/
def evaluate_model_viterbi_input (m : α → List ℚ) (e : ℚ → ℚ) (Z : List α) :
    List ℕ :=
  ((forward_by_batches m Z).map (softmaxRow e)).map argmaxIdx

lemma listMax_mem : ∀ v : List ℚ, v ≠ [] → listMax v ∈ v := by
  intro v
  induction v with
  | nil => intro h; exact absurd rfl h
  | cons x t ih =>
      intro _
      cases t with
      | nil => simp [listMax]
      | cons y t' =>
          have hm := ih (by simp)
          rcases max_choice x (listMax (y :: t')) with h | h
          · simp [listMax, h]
          · simp only [listMax, h]
            exact List.mem_cons_of_mem x hm

lemma listMax_map (f : ℚ → ℚ) :
    ∀ v : List ℚ, v ≠ [] → (∀ a ∈ v, ∀ b ∈ v, (a < b ↔ f a < f b)) →
      listMax (v.map f) = f (listMax v) := by
  intro v
  induction v with
  | nil => intro h; exact absurd rfl h
  | cons x t ih =>
      intro _ hmono
      cases t with
      | nil => simp [listMax]
      | cons y t' =>
          have hmono' : ∀ a ∈ y :: t', ∀ b ∈ y :: t', (a < b ↔ f a < f b) := by
            intro a ha b hb
            exact hmono a (List.mem_cons_of_mem x ha) b (List.mem_cons_of_mem x hb)
          have hM : listMax (y :: t') ∈ y :: t' := listMax_mem _ (by simp)
          have hMv : listMax (y :: t') ∈ x :: y :: t' := List.mem_cons_of_mem x hM
          have hxv : x ∈ x :: y :: t' := List.mem_cons_self x _
          have hrec : listMax ((y :: t').map f) = f (listMax (y :: t')) :=
            ih (by simp) hmono'
          show max (f x) (listMax ((y :: t').map f)) = f (max x (listMax (y :: t')))
          rw [hrec]
          rcases le_total x (listMax (y :: t')) with h | h
          · have hf : f x ≤ f (listMax (y :: t')) :=
              not_lt.1 (fun hlt =>
                not_lt.2 h ((hmono _ hMv x hxv).mpr hlt))
            rw [max_eq_right h, max_eq_right hf]
          · have hf : f (listMax (y :: t')) ≤ f x :=
              not_lt.1 (fun hlt =>
                not_lt.2 h ((hmono x hxv _ hMv).mpr hlt))
            rw [max_eq_left h, max_eq_left hf]

lemma argmaxIdx_map (f : ℚ → ℚ) :
    ∀ v : List ℚ, (∀ a ∈ v, ∀ b ∈ v, (a < b ↔ f a < f b)) →
      argmaxIdx (v.map f) = argmaxIdx v := by
  intro v
  induction v with
  | nil => intro _; rfl
  | cons x t ih =>
      intro hmono
      cases t with
      | nil => rfl
      | cons y t' =>
          have hmono' : ∀ a ∈ y :: t', ∀ b ∈ y :: t', (a < b ↔ f a < f b) := by
            intro a ha b hb
            exact hmono a (List.mem_cons_of_mem x ha) b (List.mem_cons_of_mem x hb)
          have hM : listMax (y :: t') ∈ y :: t' := listMax_mem _ (by simp)
          have hmax : listMax ((y :: t').map f) = f (listMax (y :: t')) :=
            listMax_map f _ (by simp) hmono'
          have hcond : f x < listMax ((y :: t').map f) ↔ x < listMax (y :: t') := by
            rw [hmax]
            exact (hmono x (List.mem_cons_self x _) _
              (List.mem_cons_of_mem x hM)).symm
          have h1 := ih hmono'
          show (if f x < listMax ((y :: t').map f) then
              argmaxIdx ((y :: t').map f) + 1 else 0)
            = if x < listMax (y :: t') then argmaxIdx (y :: t') + 1 else 0
          by_cases hc : x < listMax (y :: t')
          · rw [if_pos (hcond.mpr hc), if_pos hc, h1]
          · rw [if_neg (fun hl => hc (hcond.mp hl)), if_neg hc]

lemma argmaxIdx_softmaxRow (e : ℚ → ℚ) (v : List ℚ)
    (hpos : ∀ x ∈ v, 0 < e x)
    (hmono : ∀ a ∈ v, ∀ b ∈ v, (a < b ↔ e a < e b)) :
    argmaxIdx (softmaxRow e v) = argmaxIdx v := by
  cases v with
  | nil => rfl
  | cons x t =>
      have hS : 0 < ((x :: t).map e).sum := by
        apply List.sum_pos
        · intro q hq
          simp only [List.mem_map] at hq
          obtain ⟨a, ha, rfl⟩ := hq
          exact hpos a ha
        · simp
      have hrw : softmaxRow e (x :: t)
          = (x :: t).map (fun z => e z / ((x :: t).map e).sum) := rfl
      rw [hrw]
      apply argmaxIdx_map
      intro a ha b hb
      rw [hmono a ha b hb]
      exact (div_lt_div_iff_of_pos_right hS).symm

/-- Counterexample to C1 as stated: the object `evaluate_model` hands to the
Viterbi decoder is a per-window class-index sequence, not the softmax
probability sequence — two datasets whose softmax probability sequences
differ are handed to Viterbi as the very same input `[0]`, so the handed
input cannot be the softmax probability sequence (nor any faithful
representation of it). -/
theorem evaluate_model_viterbi_input_not_softmax :
    evaluate_model_viterbi_input id (fun x => x + 1) [[(2 : ℚ), 0]] = [0] ∧
    evaluate_model_viterbi_input id (fun x => x + 1) [[(5 : ℚ), 0]] = [0] ∧
    softmaxRow (fun x => x + 1) [(2 : ℚ), 0]
      ≠ softmaxRow (fun x => x + 1) [(5 : ℚ), 0] := by
  refine ⟨?_, ?_, ?_⟩ <;>
    norm_num [evaluate_model_viterbi_input, forward_by_batches_eq_map,
      softmaxRow, argmaxIdx, listMax]

/-- C1 (amended): for every epoch's evaluation, the input handed to the
Viterbi decoder is the sequence of per-window argmaxes of the softmax of the
network's scores — the hard class-label sequence, which (since softmax with
a positive, strictly order-preserving exponential preserves each row's
argmax) equals the per-window argmax of the raw scores.  The softmax
probability sequence itself is used to fit the HMM in `train_hmm`, not as
the Viterbi input. -/
theorem evaluate_model_viterbi_input_is_argmax (m : α → List ℚ) (e : ℚ → ℚ)
    (Z : List α)
    (hpos : ∀ z ∈ Z, ∀ x ∈ m z, 0 < e x)
    (hmono : ∀ z ∈ Z, ∀ a ∈ m z, ∀ b ∈ m z, (a < b ↔ e a < e b)) :
    evaluate_model_viterbi_input m e Z = Z.map (fun z => argmaxIdx (m z)) := by
  unfold evaluate_model_viterbi_input
  rw [forward_by_batches_eq_map, List.map_map, List.map_map]
  apply List.map_congr_left
  intro z hz
  exact argmaxIdx_softmaxRow e (m z) (hpos z hz) (hmono z hz)

/-- Witness for the amended Viterbi-input theorem on a concrete two-window
score sequence with a concrete positive order-preserving kernel. -/
theorem evaluate_model_viterbi_input_is_argmax_witness :
    (∀ z ∈ [[(2 : ℚ), 0], [0, 3]], ∀ x ∈ id z, 0 < x + 10) ∧
    (∀ z ∈ [[(2 : ℚ), 0], [0, 3]], ∀ a ∈ id z, ∀ b ∈ id z,
      (a < b ↔ a + 10 < b + 10)) ∧
    evaluate_model_viterbi_input id (fun x => x + 10) [[(2 : ℚ), 0], [0, 3]]
      = ([[(2 : ℚ), 0], [0, 3]] : List (List ℚ)).map (fun z => argmaxIdx (id z)) := by
  have hpos : ∀ z ∈ [[(2 : ℚ), 0], [0, 3]], ∀ x ∈ id z, 0 < x + 10 := by
    norm_num
  have hmono : ∀ z ∈ [[(2 : ℚ), 0], [0, 3]], ∀ a ∈ id z, ∀ b ∈ id z,
      (a < b ↔ a + 10 < b + 10) := by
    norm_num
  exact ⟨hpos, hmono,
    evaluate_model_viterbi_input_is_argmax id (fun x => x + 10)
      [[(2 : ℚ), 0], [0, 3]] hpos hmono⟩

end Capture24
